import Mathlib

/-!
Shallow embedding of the pprof-format codec (DataDog/pprof-format, src/index.ts)
and proofs about the spec's claims.

Buffers (JS `Uint8Array`) are modelled as `List Nat` of byte values; an
out-of-range indexed read yields `0` (JS gives `undefined`, which the bitwise
operators coerce to `0`), and an out-of-range indexed write is dropped.
Numeric values (JS `number` / `bigint`) are modelled as `Int`; the code is only
exercised on integral values, where the `number` and `bigint` paths of the
source compute the same function.
-/

namespace Pprof

/-! ## Private numeric helpers (src/index.ts lines 374-458) -/

/-- JS constant `lowMax = 2 ** 32 - 1`. -/
def lowMax : Nat := 2 ^ 32 - 1

/-- Indexed read from a byte buffer: `buffer[i]`, with JS out-of-bounds
reads giving `undefined`, which bitwise contexts coerce to `0`. -/
def getU8 (buffer : List Nat) (i : Nat) : Nat := buffer.getD i 0

/-- Source `countNumberBytes(buffer)`: scan `while (i < buffer.length && buffer[i++] >= 0x80)`;
the terminating byte (or the final byte of the buffer) is counted. -/
def countNumberBytes : List Nat → Nat
  | [] => 0
  | b :: rest => if b ≥ 128 then 1 + countNumberBytes rest else 1

/-- Source `lowBits(number)` for a non-negative integral value: low 32 bits. -/
def lowBits (n : Nat) : Nat := n % 2 ^ 32

/-- Source `highBits(number)` for a non-negative integral value: bits 32..63. -/
def highBits (n : Nat) : Nat := n / 2 ^ 32 % 2 ^ 32

/-- Source `long(number)`: split into unsigned 32-bit `[hi, lo]`, two's-complementing
negative input (`~hi >>> 0` on a 32-bit word is `lowMax - hi`). -/
def long (v : Int) : Nat × Nat :=
  let sign := v < 0
  let n := if sign then (-v).toNat else v.toNat
  let lo := lowBits n
  let hi := highBits n
  if sign then
    let hi := lowMax - hi
    let lo := lowMax - lo
    if lo + 1 > lowMax then
      if hi + 1 > lowMax then (0, 0) else (hi + 1, 0)
    else (hi, lo + 1)
  else (hi, lo)

/-- The unsigned 64-bit value the pair `long v` stands for (specification
helper, not part of the source). -/
def toU64 (v : Int) : Nat := (v % (2 ^ 64 : Int)).toNat

/-! ## Varint encoding (`encodeNumber`, src/index.ts lines 567-587) -/

/-- First `encodeNumber` loop: `while (hi) { buffer[i++] = lo & 127 | 128;
lo = (lo >>> 7 | hi << 25) >>> 0; hi >>>= 7 }`.  Returns the emitted bytes
and the final `lo`. -/
def encHiLoop (hi lo : Nat) : List Nat × Nat :=
  if h : hi = 0 then ([], lo)
  else
    let b := lo % 128 + 128
    let lo' := lo / 2 ^ 7 ||| hi * 2 ^ 25 % 2 ^ 32
    let rest := encHiLoop (hi / 2 ^ 7) lo'
    (b :: rest.1, rest.2)
termination_by hi
decreasing_by exact Nat.div_lt_self (Nat.pos_of_ne_zero h) (by norm_num)

/-- Second `encodeNumber` loop plus the final byte:
`while (lo > 127) { buffer[i++] = lo & 127 | 128; lo >>>= 7 }; buffer[i++] = lo`. -/
def encLoLoop (lo : Nat) : List Nat :=
  if lo > 127 then (lo % 128 + 128) :: encLoLoop (lo / 2 ^ 7) else [lo]
termination_by lo
decreasing_by exact Nat.div_lt_self (by omega) (by norm_num)

/-- Source `encodeNumber(buffer, i, number)`, modelled as the list of bytes written
(the source writes them consecutively and returns the new offset). -/
def encodeNumber (v : Int) : List Nat :=
  if v = 0 then [0]
  else
    let p := long v
    let q := encHiLoop p.1 p.2
    q.1 ++ encLoLoop q.2

/-! ## Varint decoding (src/index.ts lines 396-404 and 466-491) -/

/-- Shared accumulation loop of `decodeNumber` and `decodeBigNumber`:
`while (buffer[i++] >= 0x80) { value |= (buffer[i] & 0x7f) << (7 * i) }`.
The condition probes `buffer[i]` and the body then probes `buffer[i+1]`
(one slot past the end on a truncated varint, giving 0).  On every input
reachable from `decodeNumber` the native path's 32-bit shifts cannot
overflow (at most 4 encoded bytes), so one `Nat`-valued loop models both
the `number` and the `BigInt` variant. -/
def varintLoop (buffer : List Nat) (i : Nat) (value : Nat) : Nat :=
  if h : getU8 buffer i ≥ 128 then
    varintLoop buffer (i + 1) (value ||| getU8 buffer (i + 1) % 128 * 2 ^ (7 * (i + 1)))
  else value
termination_by buffer.length - i
decreasing_by
  have hi : i < buffer.length := by
    by_contra hge
    have : getU8 buffer i = 0 := List.getD_eq_default _ _ (by omega)
    omega
  omega

/-- Source `decodeBigNumber(buffer)` (BigInt accumulation path; `value` starts from
`buffer[0] & 0x7f`, the empty buffer short-circuits to `0`). -/
def decodeBigNumber (buffer : List Nat) : Nat :=
  match buffer with
  | [] => 0
  | b :: _ => varintLoop buffer 0 (b % 128)

/-- Source `decodeNumber(buffer)`: dispatch to the BigInt path when more than 4
encoded bytes, else accumulate natively. -/
def decodeNumber (buffer : List Nat) : Nat :=
  if countNumberBytes buffer > 4 then decodeBigNumber buffer
  else match buffer with
    | [] => 0
    | b :: _ => varintLoop buffer 0 (b % 128)

/-- Source `decodeNumbers(buffer)`: split a packed buffer at continuation-bit
boundaries and decode each chunk; a trailing chunk with no terminating byte
is dropped.  `chunk` carries `buffer.slice(start, i)`. -/
def decodeNumbersGo (chunk : List Nat) : List Nat → List Nat
  | [] => []
  | b :: rest =>
    if b &&& 128 = 0 then decodeNumber (chunk ++ [b]) :: decodeNumbersGo [] rest
    else decodeNumbersGo (chunk ++ [b]) rest

/-- Source `decodeNumbers(buffer)` (src/index.ts lines 479-491). -/
def decodeNumbers (buffer : List Nat) : List Nat := decodeNumbersGo [] buffer

/-! ## Measurement (src/index.ts lines 497-565) -/

/-- Source `measureNumber(number)` (src/index.ts lines 497-522): 0 for zero, else a
branch tree over the 32-bit split (`b = (lo >>> 28 | hi << 4) >>> 0`,
`c = hi >>> 24`). -/
def measureNumber (v : Int) : Nat :=
  if v = 0 then 0
  else
    let p := long v
    let hi := p.1
    let lo := p.2
    let a := lo
    let b := lo / 2 ^ 28 ||| hi * 2 ^ 4 % 2 ^ 32
    let c := hi / 2 ^ 24
    if c ≠ 0 then (if c < 128 then 9 else 10)
    else if b ≠ 0 then
      if b < 16384 then (if b < 128 then 5 else 6)
      else if b < 2097152 then 7 else 8
    else if a < 16384 then (if a < 128 then 1 else 2)
    else if a < 2097152 then 3 else 4

/-- Source `measureValue` restricted to numeric values: `measureNumber(value) || 1`. -/
def measureValueNum (v : Int) : Nat :=
  if measureNumber v = 0 then 1 else measureNumber v

/-- Source `measureArray(list)` for a list of numeric values. -/
def measureArray (l : List Int) : Nat := (l.map measureValueNum).sum

/-- Source `measureNumberField(number)`: `length ? 1 + length : 0`. -/
def measureNumberField (v : Int) : Nat :=
  if measureNumber v = 0 then 0 else 1 + measureNumber v

/-- Source `measureNumberArrayField(values)`: the packed field's measured size,
`total ? 2 + total : 0` with a minimum of one byte per element. -/
def measureNumberArrayField (values : List Int) : Nat :=
  if measureArray values = 0 then 0 else 2 + measureArray values

/-! ## Varint correctness -/

/-- Bitwise-or with a shifted value is addition when the low part fits. -/
lemma lor_mul_two_pow {n : Nat} (a b : Nat) (h : a < 2 ^ n) :
    a ||| b * 2 ^ n = a + b * 2 ^ n := by
  apply Nat.eq_of_testBit_eq
  intro j
  have hsum : a + b * 2 ^ n = 2 ^ n * b + a := by ring
  rw [Nat.testBit_or, hsum, Nat.testBit_mul_pow_two_add b h j,
    ← Nat.shiftLeft_eq b n, Nat.testBit_shiftLeft]
  rcases Nat.lt_or_ge j n with hj | hj
  · simp [hj, Nat.not_le.mpr hj]
  · have ha : a.testBit j = false :=
      Nat.testBit_lt_two_pow (lt_of_lt_of_le h (Nat.pow_le_pow_right (by norm_num) hj))
    simp [ha, Nat.not_lt.mpr hj, hj]

lemma toU64_lt (v : Int) : toU64 v < 2 ^ 64 := by
  unfold toU64
  have h1 : v % (2 ^ 64 : Int) < 2 ^ 64 := Int.emod_lt_of_pos v (by norm_num)
  have h2 : (0 : Int) ≤ v % (2 ^ 64 : Int) := Int.emod_nonneg v (by norm_num)
  omega

lemma toU64_of_nonneg {v : Int} (h0 : 0 ≤ v) (h1 : v < 2 ^ 64) : (toU64 v : Int) = v := by
  unfold toU64
  omega

/-- The 32-bit split computed by `long` is exactly the high and low words of
the unsigned 64-bit reduction of the input. -/
lemma long_eq (v : Int) : long v = (toU64 v / 2 ^ 32, toU64 v % 2 ^ 32) := by
  simp only [long, toU64, lowBits, highBits, lowMax]
  split_ifs <;> rw [Prod.mk.injEq] <;> omega

lemma encLoLoop_ne_nil (m : Nat) : encLoLoop m ≠ [] := by
  rw [encLoLoop]
  split_ifs <;> simp

lemma encLoLoop_of_le (m : Nat) (h : m ≤ 127) : encLoLoop m = [m] := by
  rw [encLoLoop, if_neg (by omega)]

lemma encLoLoop_of_gt (m : Nat) (h : m > 127) :
    encLoLoop m = (m % 128 + 128) :: encLoLoop (m / 2 ^ 7) := by
  rw [encLoLoop, if_pos h]

/-- Head byte of a varint encoding, reduced mod 128, is the low 7-bit group. -/
lemma encLoLoop_head_mod (m : Nat) : getU8 (encLoLoop m) 0 % 128 = m % 128 := by
  rw [encLoLoop]
  split_ifs with h <;> simp [getU8]

/-- The first `encodeNumber` loop followed by the second is the plain
base-128 group emission of the combined 64-bit value. -/
lemma encHiLoop_append (hi : Nat) : ∀ lo : Nat, hi < 2 ^ 32 → lo < 2 ^ 32 →
    (encHiLoop hi lo).1 ++ encLoLoop (encHiLoop hi lo).2 =
      encLoLoop (hi * 2 ^ 32 + lo) := by
  induction hi using Nat.strong_induction_on with
  | _ hi IH =>
    intro lo hhi hlo
    rw [encHiLoop]
    split_ifs with h
    · subst h; simp
    · simp only
      have hlor : lo / 2 ^ 7 ||| hi * 2 ^ 25 % 2 ^ 32
          = lo / 2 ^ 7 + hi % 2 ^ 7 * 2 ^ 25 := by
        have h1 : hi * 2 ^ 25 % 2 ^ 32 = hi % 2 ^ 7 * 2 ^ 25 := by omega
        rw [h1, lor_mul_two_pow _ _ (by omega)]
      rw [List.cons_append, hlor,
        IH (hi / 2 ^ 7) (Nat.div_lt_self (Nat.pos_of_ne_zero h) (by norm_num))
          _ (by omega) (by omega),
        encLoLoop_of_gt (hi * 2 ^ 32 + lo) (by omega)]
      congr 1
      · omega
      · congr 1
        omega

/-- Lemma: `encodeNumber` emits exactly the base-128 groups of the unsigned 64-bit
reduction of its input. -/
lemma encodeNumber_eq (v : Int) : encodeNumber v = encLoLoop (toU64 v) := by
  unfold encodeNumber
  split_ifs with h
  · subst h
    rw [show toU64 0 = 0 from rfl, encLoLoop_of_le 0 (by norm_num)]
  · rw [long_eq]
    simp only
    have hN := toU64_lt v
    rw [encHiLoop_append _ _ (by omega) (by omega)]
    congr 1
    omega

/-- Structural form of the shared decode loop, acting on the suffix of the
buffer from the current index (`sh` is the shift for the byte after the
continuation byte under test). -/
def listLoop : List Nat → Nat → Nat → Nat
  | [], _, v => v
  | b :: rest, sh, v =>
    if b ≥ 128 then listLoop rest (sh + 7) (v ||| getU8 rest 0 % 128 * 2 ^ sh) else v

lemma getU8_drop (buffer : List Nat) (n : Nat) : getU8 (buffer.drop n) 0 = getU8 buffer n := by
  simp [getU8, List.getD_eq_getElem?_getD, List.getElem?_drop]

lemma getU8_lt_of_ge {buffer : List Nat} {i : Nat} (h : getU8 buffer i ≥ 128) :
    i < buffer.length := by
  by_contra hge
  have : getU8 buffer i = 0 := List.getD_eq_default _ _ (by omega)
  omega

lemma varintLoop_eq_listLoop (buffer : List Nat) : ∀ i v : Nat,
    varintLoop buffer i v = listLoop (buffer.drop i) (7 * (i + 1)) v := by
  refine varintLoop.induct buffer
    (fun i v => varintLoop buffer i v = listLoop (buffer.drop i) (7 * (i + 1)) v) ?_ ?_
  · intro i v h IH
    have hlt : i < buffer.length := getU8_lt_of_ge h
    rw [varintLoop, dif_pos h, IH, List.drop_eq_getElem_cons hlt, listLoop]
    have hbi : getU8 buffer i = buffer[i] := by
      simp [getU8, List.getD_eq_getElem?_getD, List.getElem?_eq_getElem hlt]
    rw [if_pos (by omega), getU8_drop]
    congr 2
  · intro i v h
    rw [varintLoop, dif_neg h]
    rcases Nat.lt_or_ge i buffer.length with hlt | hge
    · rw [List.drop_eq_getElem_cons hlt, listLoop]
      have hbi : getU8 buffer i = buffer[i] := by
        simp [getU8, List.getD_eq_getElem?_getD, List.getElem?_eq_getElem hlt]
      rw [if_neg (by omega)]
    · rw [List.drop_eq_nil_of_le hge, listLoop]

/-- Running the decode loop over a varint encoding recovers the value's high
groups, shifted into place above the already-accumulated bits. -/
lemma listLoop_encLoLoop (m : Nat) : ∀ sh v, listLoop (encLoLoop m) sh v = v ||| m / 128 * 2 ^ sh := by
  induction m using Nat.strong_induction_on with
  | _ m IH =>
    intro sh v
    rcases Nat.lt_or_ge m 128 with h | h
    · rw [encLoLoop_of_le m (by omega), listLoop, if_neg (by omega),
        Nat.div_eq_of_lt h]
      simp
    · rw [encLoLoop_of_gt m (by omega), listLoop, if_pos (by omega),
        encLoLoop_head_mod,
        IH (m / 2 ^ 7) (Nat.div_lt_self (by omega) (by norm_num)),
        Nat.lor_assoc]
      congr 1
      have hfit : m / 2 ^ 7 % 128 * 2 ^ sh < 2 ^ (sh + 7) := by
        have h1 : m / 2 ^ 7 % 128 < 128 := Nat.mod_lt _ (by norm_num)
        have h2 : (2 : Nat) ^ (sh + 7) = 128 * 2 ^ sh := by rw [pow_add]; ring
        rw [h2]
        exact (Nat.mul_lt_mul_right (Nat.two_pow_pos sh)).mpr h1
      rw [lor_mul_two_pow _ _ hfit,
        show (2 : Nat) ^ (sh + 7) = 2 ^ 7 * 2 ^ sh from by rw [pow_add]; ring,
        show m / 2 ^ 7 % 128 * 2 ^ sh + m / 2 ^ 7 / 128 * (2 ^ 7 * 2 ^ sh)
            = (m / 2 ^ 7 % 128 + m / 2 ^ 7 / 128 * 2 ^ 7) * 2 ^ sh from by ring,
        show m / 2 ^ 7 % 128 + m / 2 ^ 7 / 128 * 2 ^ 7 = m / 128 from by omega]

/-- Both decode entry points reduce to the shared loop on a non-empty buffer. -/
lemma decode_cons (b : Nat) (rest : List Nat) :
    decodeNumber (b :: rest) = varintLoop (b :: rest) 0 (b % 128) ∧
    decodeBigNumber (b :: rest) = varintLoop (b :: rest) 0 (b % 128) := by
  unfold decodeNumber decodeBigNumber
  split_ifs <;> exact ⟨rfl, rfl⟩

/-- The loop applied from the head of a varint encoding recovers the value. -/
lemma varintLoop_encLoLoop (m : Nat) :
    varintLoop (encLoLoop m) 0 (getU8 (encLoLoop m) 0 % 128) = m := by
  rw [varintLoop_eq_listLoop, List.drop_zero, encLoLoop_head_mod,
    listLoop_encLoLoop, lor_mul_two_pow _ _ (by omega)]
  omega

/-- Decoding a varint encoding recovers the encoded value exactly (the
decoder does not truncate to 64 bits). -/
lemma decodeNumber_encLoLoop (m : Nat) : decodeNumber (encLoLoop m) = m := by
  obtain ⟨b, rest, hbr⟩ : ∃ b rest, encLoLoop m = b :: rest := by
    rcases h : encLoLoop m with _ | ⟨b, rest⟩
    · exact absurd h (encLoLoop_ne_nil m)
    · exact ⟨b, rest, rfl⟩
  have hhead : b % 128 = getU8 (encLoLoop m) 0 % 128 := by rw [hbr]; rfl
  rw [hbr, (decode_cons b rest).1, hhead, ← hbr, varintLoop_encLoLoop]

lemma decodeBigNumber_encLoLoop (m : Nat) : decodeBigNumber (encLoLoop m) = m := by
  obtain ⟨b, rest, hbr⟩ : ∃ b rest, encLoLoop m = b :: rest := by
    rcases h : encLoLoop m with _ | ⟨b, rest⟩
    · exact absurd h (encLoLoop_ne_nil m)
    · exact ⟨b, rest, rfl⟩
  have hhead : b % 128 = getU8 (encLoLoop m) 0 % 128 := by rw [hbr]; rfl
  rw [hbr, (decode_cons b rest).2, hhead, ← hbr, varintLoop_encLoLoop]

/-- A value below 128 encodes to a single byte. -/
lemma encLoLoop_length_small (m : Nat) (h : m < 128) : (encLoLoop m).length = 1 := by
  rw [encLoLoop_of_le m (by omega)]
  rfl

/-- A value in the k-th base-128 magnitude window encodes to `k + 1` bytes. -/
lemma encLoLoop_length (k : Nat) : ∀ m : Nat, 128 ^ k ≤ m → m < 128 ^ (k + 1) →
    (encLoLoop m).length = k + 1 := by
  induction k with
  | zero =>
    intro m _ h2
    exact encLoLoop_length_small m (by simpa using h2)
  | succ k IH =>
    intro m h1 h2
    have h128 : (128 : Nat) ≤ 128 ^ (k + 1) := by
      calc (128 : Nat) = 128 ^ 1 := (pow_one 128).symm
      _ ≤ 128 ^ (k + 1) := Nat.pow_le_pow_right (by norm_num) (by omega)
    have h27 : (2 : Nat) ^ 7 = 128 := by norm_num
    rw [encLoLoop_of_gt m (by omega), List.length_cons,
      IH (m / 2 ^ 7) ?_ ?_]
    · exact (Nat.le_div_iff_mul_le (by norm_num)).mpr (by rw [h27, ← pow_succ]; exact h1)
    · exact (Nat.div_lt_iff_lt_mul (by norm_num)).mpr (by rw [h27, ← pow_succ]; exact h2)

/-- The branch tree of `measureNumber` computes exactly the byte length of
the varint encoding (for non-zero input; zero is guarded to 0). -/
lemma measureNumber_eq_length (v : Int) (hv : v ≠ 0) :
    measureNumber v = (encodeNumber v).length := by
  rw [encodeNumber_eq]
  have hNlt : toU64 v < 2 ^ 64 := toU64_lt v
  simp only [measureNumber, long_eq, hv, if_false]
  set N := toU64 v with hN
  have hb : N % 2 ^ 32 / 2 ^ 28 ||| N / 2 ^ 32 * 2 ^ 4 % 2 ^ 32
      = N % 2 ^ 32 / 2 ^ 28 + N / 2 ^ 32 % 2 ^ 28 * 2 ^ 4 := by
    have h1 : N / 2 ^ 32 * 2 ^ 4 % 2 ^ 32 = N / 2 ^ 32 % 2 ^ 28 * 2 ^ 4 := by omega
    rw [h1, lor_mul_two_pow _ _ (by omega)]
  rw [hb]
  split_ifs with c0 c128 b0 b16384 b128 b2097152 a16384 a128 a2097152
  · exact (encLoLoop_length 8 N (by omega) (by omega)).symm
  · exact (encLoLoop_length 9 N (by omega) (by omega)).symm
  · exact (encLoLoop_length 4 N (by omega) (by omega)).symm
  · exact (encLoLoop_length 5 N (by omega) (by omega)).symm
  · exact (encLoLoop_length 6 N (by omega) (by omega)).symm
  · exact (encLoLoop_length 7 N (by omega) (by omega)).symm
  · exact (encLoLoop_length_small N (by omega)).symm
  · exact (encLoLoop_length 1 N (by omega) (by omega)).symm
  · exact (encLoLoop_length 2 N (by omega) (by omega)).symm
  · exact (encLoLoop_length 3 N (by omega) (by omega)).symm

/-- Lemma: `measureValue` on a numeric value always equals the encoded byte count
(the `|| 1` patches the zero case). -/
lemma measureNumber_zero : measureNumber 0 = 0 := by simp [measureNumber]

lemma measureValueNum_eq_length (v : Int) : measureValueNum v = (encodeNumber v).length := by
  unfold measureValueNum
  split_ifs with h
  · rcases eq_or_ne v 0 with rfl | hv
    · rw [encodeNumber_eq, show toU64 0 = 0 from rfl, encLoLoop_of_le 0 (by norm_num)]
      rfl
    · exfalso
      rw [measureNumber_eq_length v hv, encodeNumber_eq] at h
      exact encLoLoop_ne_nil (toU64 v) (List.length_eq_zero.mp h)
  · rcases eq_or_ne v 0 with rfl | hv
    · exact absurd measureNumber_zero h
    · exact measureNumber_eq_length v hv

/-! ## Generic field codec (src/index.ts lines 406-427 and 653-672) -/

/-- Wire kind constants. -/
def kTypeVarInt : Nat := 0

def kTypeLengthDelim : Nat := 2

/-- JS `buffer.slice(s, e)` for non-negative bounds. -/
def jsSlice (l : List Nat) (s e : Nat) : List Nat := (l.take e).drop s

/-- The varint arm of `getValue`: scan for the first byte with the
continuation bit clear and slice through it; if none, return the whole
buffer. -/
def takeVarint : List Nat → List Nat
  | [] => []
  | b :: rest => if b &&& 128 = 0 then [b] else b :: takeVarint rest

/-- Source `getValue(mode, buffer)`: returns the raw field payload and the extra
offset consumed before it.  The length-delimited arm slices
`buffer.slice(offset, size + 1)` exactly as the source does.  Unknown wire
kinds throw. -/
def getValue (mode : Nat) (buffer : List Nat) : Except String (List Nat × Nat) :=
  if mode = kTypeVarInt then
    .ok (takeVarint buffer, 0)
  else if mode = kTypeLengthDelim then
    let offset := countNumberBytes buffer
    let size := decodeNumber buffer
    .ok (jsSlice buffer offset (size + 1), offset)
  else .error ("Unrecognized value type: " ++ toString mode)

/-- The generic tag-dispatch decode loop shared by every message type
(`decode` in the source): read a tag byte, fetch the payload via `getValue`,
hand it to the per-type handler, advance past tag + offset + payload.
The handler is `Except`-valued because nested submessage decoding can throw. -/
def decodeLoop {α : Type} (handler : α → Nat → List Nat → Except String α)
    (data : α) (buffer : List Nat) : Except String α :=
  match buffer with
  | [] => .ok data
  | tag :: rest =>
    match getValue (tag % 8) rest with
    | .error e => .error e
    | .ok (value, offset) =>
      match handler data (tag / 8) value with
      | .error e => .error e
      | .ok data' => decodeLoop handler data' (rest.drop (value.length + offset))
termination_by buffer.length
decreasing_by simp only [List.length_cons]; have := List.length_drop (value.length + offset) rest; omega

/-- Fixed-size `Uint8Array` allocation: indexed writes beyond the allocated
size are silently dropped, unwritten trailing slots stay zero.  Models
`encode(buffer = new Uint8Array(this.length))`. -/
def jsWrite (size : Nat) (bytes : List Nat) : List Nat :=
  bytes.take size ++ List.replicate (size - bytes.length) 0

/-! ## ValueType (src/index.ts lines 674-728) -/

structure ValueTypeInput where
  type : Option Int := none
  unit : Option Int := none
deriving DecidableEq, Repr

/-- Instances of `ValueType`: constructor applies `data.type || 0`. -/
structure ValueType where
  type : Int
  unit : Int
deriving DecidableEq, Repr

def ValueType.ofInput (d : ValueTypeInput) : ValueType :=
  ⟨d.type.getD 0, d.unit.getD 0⟩

def ValueType.length (v : ValueType) : Nat :=
  measureNumberField v.type + measureNumberField v.unit

/-- Source `_encodeToBuffer`: sequential writes, modelled as the emitted byte list. -/
def ValueType.encodeToBuffer (v : ValueType) : List Nat :=
  (if v.type ≠ 0 then 8 :: encodeNumber v.type else []) ++
    (if v.unit ≠ 0 then 16 :: encodeNumber v.unit else [])

def ValueType.encode (v : ValueType) : List Nat :=
  jsWrite v.length v.encodeToBuffer

/-- Source `ValueType.decodeValue`: field 1 sets `type`, field 2 sets `unit`,
anything else is ignored. -/
def ValueType.decodeValue (d : ValueTypeInput) (field : Nat) (buffer : List Nat) :
    ValueTypeInput :=
  match field with
  | 1 => { d with type := some (decodeNumber buffer) }
  | 2 => { d with unit := some (decodeNumber buffer) }
  | _ => d

def ValueType.decode (buffer : List Nat) : Except String ValueType :=
  (decodeLoop (fun d f b => .ok (ValueType.decodeValue d f b)) {} buffer).map ValueType.ofInput

/-! ## Label (src/index.ts lines 730-808) -/

structure LabelInput where
  key : Option Int := none
  str : Option Int := none
  num : Option Int := none
  numUnit : Option Int := none
deriving DecidableEq, Repr

structure Label where
  key : Int
  str : Int
  num : Int
  numUnit : Int
deriving DecidableEq, Repr

def Label.ofInput (d : LabelInput) : Label :=
  ⟨d.key.getD 0, d.str.getD 0, d.num.getD 0, d.numUnit.getD 0⟩

def Label.length (l : Label) : Nat :=
  measureNumberField l.key + measureNumberField l.str +
    measureNumberField l.num + measureNumberField l.numUnit

def Label.encodeToBuffer (l : Label) : List Nat :=
  (if l.key ≠ 0 then 8 :: encodeNumber l.key else []) ++
    (if l.str ≠ 0 then 16 :: encodeNumber l.str else []) ++
    (if l.num ≠ 0 then 24 :: encodeNumber l.num else []) ++
    (if l.numUnit ≠ 0 then 32 :: encodeNumber l.numUnit else [])

def Label.decodeValue (d : LabelInput) (field : Nat) (buffer : List Nat) : LabelInput :=
  match field with
  | 1 => { d with key := some (decodeNumber buffer) }
  | 2 => { d with str := some (decodeNumber buffer) }
  | 3 => { d with num := some (decodeNumber buffer) }
  | 4 => { d with numUnit := some (decodeNumber buffer) }
  | _ => d

def Label.decode (buffer : List Nat) : Except String Label :=
  (decodeLoop (fun d f b => .ok (Label.decodeValue d f b)) {} buffer).map Label.ofInput

/-! ## Sample (src/index.ts lines 810-883) -/

/-- Source `push(value, list)`: append, or start a fresh singleton when the list
is still `undefined`. -/
def push {α : Type} (v : α) (l : Option (List α)) : List α :=
  match l with
  | some xs => xs ++ [v]
  | none => [v]

structure SampleInput where
  locationId : Option (List Int) := none
  value : Option (List Int) := none
  label : Option (List Label) := none
deriving DecidableEq, Repr

structure Sample where
  locationId : List Int
  value : List Int
  label : List Label
deriving DecidableEq, Repr

/-- Constructor: missing sequences default to empty, labels are
copy-constructed (`new Label(l)` over `Label` data is the identity copy). -/
def Sample.ofInput (d : SampleInput) : Sample :=
  ⟨d.locationId.getD [], d.value.getD [],
    (d.label.getD []).map (fun l => Label.ofInput ⟨some l.key, some l.str, some l.num, some l.numUnit⟩)⟩

def Sample.length (s : Sample) : Nat :=
  measureNumberArrayField s.locationId + measureNumberArrayField s.value +
    (s.label.map (fun l => if l.length = 0 then 0 else 2 + l.length)).sum

/-- Source `Sample._encodeToBuffer`: packed `locationId` and `value` fields, then
one length-delimited entry per label. -/
def Sample.encodeToBuffer (s : Sample) : List Nat :=
  (if s.locationId.length ≠ 0 then
    10 :: (encodeNumber (measureArray s.locationId) ++
      s.locationId.flatMap (fun v => encodeNumber v))
  else []) ++
    (if s.value.length ≠ 0 then
      18 :: (encodeNumber (measureArray s.value) ++
        s.value.flatMap (fun v => encodeNumber v))
    else []) ++
    s.label.flatMap (fun l => 26 :: (encodeNumber (l.length : Int) ++ l.encodeToBuffer))

def Sample.encode (s : Sample) : List Nat :=
  jsWrite s.length s.encodeToBuffer

def Sample.decodeValue (d : SampleInput) (field : Nat) (buffer : List Nat) :
    Except String SampleInput :=
  match field with
  | 1 => .ok { d with locationId := some ((decodeNumbers buffer).map (fun (n : Nat) => (n : Int))) }
  | 2 => .ok { d with value := some ((decodeNumbers buffer).map (fun (n : Nat) => (n : Int))) }
  | 3 => (Label.decode buffer).map (fun l => { d with label := some (push l d.label) })
  | _ => .ok d

def Sample.decode (buffer : List Nat) : Except String Sample :=
  (decodeLoop Sample.decodeValue {} buffer).map Sample.ofInput

/-! ## String table (src/index.ts lines 589-651)

The table is an `Array` subclass holding the entry strings, with two
instance-private `Map`s: string → position and string → cached wire bytes.
JS `Map`s preserve insertion order and `set` on an existing key updates in
place, modelled by an association list. -/

/-- UTF-8 encoding of one character (model of `TextEncoder` /
`Buffer.from(s, 'utf8')`, which the source delegates to the platform). -/
def charUtf8 (c : Char) : List Nat :=
  let n := c.toNat
  if n < 0x80 then [n]
  else if n < 0x800 then [0xC0 ||| n / 64, 0x80 ||| n % 64]
  else if n < 0x10000 then [0xE0 ||| n / 4096, 0x80 ||| n / 64 % 64, 0x80 ||| n % 64]
  else [0xF0 ||| n / 262144, 0x80 ||| n / 4096 % 64, 0x80 ||| n / 64 % 64, 0x80 ||| n % 64]

/-- UTF-8 bytes of a string. -/
def utf8Bytes (s : String) : List Nat := s.data.flatMap charUtf8

/-- JS `Map` membership. -/
def mapHas {α : Type} (m : List (String × α)) (k : String) : Bool :=
  m.any (fun p => p.1 = k)

/-- JS `Map.get`. -/
def mapGet {α : Type} (m : List (String × α)) (k : String) : Option α :=
  (m.find? (fun p => p.1 = k)).map (fun p => p.2)

/-- JS `Map.set`: update in place if present (keeping insertion order),
else append. -/
def mapSet {α : Type} (m : List (String × α)) (k : String) (v : α) : List (String × α) :=
  if mapHas m k then m.map (fun p => if p.1 = k then (k, v) else p) else m ++ [(k, v)]

structure StringTable where
  entries : List String
  positions : List (String × Nat)
  encodings : List (String × List Nat)
deriving DecidableEq, Repr

/-- Source `new StringTable()`: starts with the empty string at index 0, both maps
empty (the constructor caches nothing). -/
def StringTable.new : StringTable := ⟨[""], [], []⟩

/-- Source `StringTable._encodeString(string)`: allocates
`Uint8Array(1 + stringBuffer.length + measureNumber(stringBuffer.length))`,
writes the tag byte 50 and the length varint (indexed writes, dropped when
out of range), then `buffer.set(stringBuffer, offset)` — which throws a
RangeError when `srcLength + offset > targetLength`, as happens for the
empty string (`measureNumber(0) = 0` under-allocates). -/
def StringTable.encodeString (s : String) : Except String (List Nat) :=
  let sb := utf8Bytes s
  let size := 1 + sb.length + measureNumber (sb.length : Int)
  let written := 50 :: encodeNumber (sb.length : Int)
  if sb.length + written.length > size then .error "offset is out of bounds"
  else .ok (jsWrite size (written ++ sb))

/-- A dedup argument is a string or (already-interned) number. -/
def jsFalsy : String ⊕ Int → Bool
  | .inl s => s = ""
  | .inr n => n = 0

/-- Source `dedup(string)`: falsy input returns 0; numbers are returned unchanged;
a new string is pushed, indexed, and its wire bytes cached. -/
def StringTable.dedup (t : StringTable) (x : String ⊕ Int) : Except String (StringTable × Int) :=
  if jsFalsy x then .ok (t, 0)
  else match x with
  | .inr n => .ok (t, n)
  | .inl s =>
    if mapHas t.positions s then .ok (t, ((mapGet t.positions s).getD 0 : Nat))
    else
      let entries := t.entries ++ [s]
      let pos := entries.length - 1
      match StringTable.encodeString s with
      | .error e => .error e
      | .ok enc =>
        .ok (⟨entries, mapSet t.positions s pos, mapSet t.encodings s enc⟩, (pos : Nat))

/-- One step of `StringTable.from`'s copy loop: push the value and set both
maps (no dedup — every input value is pushed). -/
def StringTable.fromStep (t : StringTable) (v : String) : Except String StringTable :=
  let entries := t.entries ++ [v]
  match StringTable.encodeString v with
  | .error e => .error e
  | .ok enc =>
    .ok ⟨entries, mapSet t.positions v (entries.length - 1), mapSet t.encodings v enc⟩

/-- Source `StringTable.from(values)` for a plain string sequence (the
`values instanceof StringTable` arm returns the argument itself and is not
modelled separately). -/
def StringTable.fromList (values : List String) : Except String StringTable :=
  values.foldlM StringTable.fromStep StringTable.new

/-- Source `get encodedLength()`: total size of the cached wire encodings. -/
def StringTable.encodedLength (t : StringTable) : Nat :=
  (t.encodings.map (fun p => p.2.length)).sum

/-- Source `encode(buffer, offset)`: appends every cached encoding in insertion
order; modelled as the bytes written. -/
def StringTable.encode (t : StringTable) : List Nat :=
  (t.encodings.map (fun p => p.2)).flatten

/-- Tables reachable through the public construction API: the constructor,
`dedup`, and `StringTable.from` over a string sequence. -/
inductive StringTable.Reachable : StringTable → Prop
  | new : StringTable.Reachable StringTable.new
  | dedup (t t' : StringTable) (x : String ⊕ Int) (i : Int) :
      StringTable.Reachable t → t.dedup x = .ok (t', i) → StringTable.Reachable t'
  | ofList (vs : List String) (t : StringTable) :
      StringTable.fromList vs = .ok t → StringTable.Reachable t

/-! ## Evaluation helpers -/

lemma toU64_natCast (n : Nat) (h : n < 2 ^ 64) : toU64 (n : Int) = n := by
  unfold toU64
  omega

/-- Small non-negative values encode to a single byte. -/
lemma encodeNumber_int_small (v : Int) (h0 : 0 ≤ v) (h : v < 128) :
    encodeNumber v = [v.toNat] := by
  rw [encodeNumber_eq, show toU64 v = v.toNat from by unfold toU64; omega,
    encLoLoop_of_le _ (by omega)]

/-- Values in `[128, 2^14)` encode to two bytes. -/
lemma encodeNumber_int_two (v : Int) (h0 : 128 ≤ v) (h : v < 16384) :
    encodeNumber v = [v.toNat % 128 + 128, v.toNat / 128] := by
  rw [encodeNumber_eq, show toU64 v = v.toNat from by unfold toU64; omega,
    encLoLoop_of_gt _ (by omega),
    show v.toNat / 2 ^ 7 = v.toNat / 128 from by norm_num,
    encLoLoop_of_le _ (by omega)]

lemma and_128_eq_zero {v : Nat} (h : v < 128) : v &&& 128 = 0 := by
  have h7 : v.testBit 7 = false := Nat.testBit_lt_two_pow (by omega)
  have h2 := Nat.and_two_pow v 7
  norm_num [h7] at h2
  simpa using h2

lemma countNumberBytes_cons_small {s : Nat} (rest : List Nat) (h : s < 128) :
    countNumberBytes (s :: rest) = 1 := by
  have hns : ¬ s ≥ 128 := by omega
  simp [countNumberBytes, hns]

lemma decodeNumber_cons_small {s : Nat} (rest : List Nat) (h : s < 128) :
    decodeNumber (s :: rest) = s := by
  rw [(decode_cons s rest).1, varintLoop,
    dif_neg (by simpa [getU8] using by omega : ¬ getU8 (s :: rest) 0 ≥ 128)]
  simp [Nat.mod_eq_of_lt h]

lemma decodeLoop_nil {α : Type} (handler : α → Nat → List Nat → Except String α) (d : α) :
    decodeLoop handler d [] = .ok d := by
  rw [decodeLoop]

lemma decodeLoop_cons {α : Type} (handler : α → Nat → List Nat → Except String α)
    (d : α) (tag : Nat) (rest : List Nat) :
    decodeLoop handler d (tag :: rest) =
      match getValue (tag % 8) rest with
      | .error e => .error e
      | .ok (value, offset) =>
        match handler d (tag / 8) value with
        | .error e => .error e
        | .ok d' => decodeLoop handler d' (rest.drop (value.length + offset)) := by
  rw [decodeLoop]

/-- The varint arm of `getValue` on a buffer whose head terminates. -/
lemma getValue_varint_small {v : Nat} (rest : List Nat) (h : v < 128) :
    getValue 0 (v :: rest) = .ok ([v], 0) := by
  simp [getValue, kTypeVarInt, takeVarint, and_128_eq_zero h]

/-- The length-delimited arm of `getValue` with a one-byte length prefix:
the source slices `buffer.slice(offset, size + 1)`, i.e. it takes only
`size` payload bytes after the single prefix byte. -/
lemma getValue_lengthDelim_small {s : Nat} (tail : List Nat) (h : s < 128) :
    getValue 2 (s :: tail) = .ok (tail.take s, 1) := by
  simp only [getValue, kTypeLengthDelim, kTypeVarInt]
  norm_num
  rw [countNumberBytes_cons_small tail h, decodeNumber_cons_small tail h]
  simp [jsSlice]

lemma measureArray_eq_length (l : List Int) :
    measureArray l = (l.flatMap (fun v => encodeNumber v)).length := by
  induction l with
  | nil => rfl
  | cons x xs IH =>
    simp [measureArray, List.flatMap_cons, measureValueNum_eq_length,
      List.map_cons, List.sum_cons] at *
    omega

/-! ## Claim theorems -/

/-- C5: for every non-zero integer, `measureNumber` returns exactly the
number of bytes `encodeNumber` writes; zero measures to 0 under the
default-omission guard (`measureNumber`), to 1 as a true varint length
(`measureValue`), and actually encodes to the single byte `[0]`. -/
theorem c5_measure_matches_encoding :
    (∀ v : Int, v ≠ 0 → measureNumber v = (encodeNumber v).length)
    ∧ measureNumber 0 = 0
    ∧ measureValueNum 0 = 1
    ∧ encodeNumber 0 = [0] :=
  ⟨measureNumber_eq_length, measureNumber_zero, rfl, rfl⟩

theorem c5_witness : measureNumber 1000000 = (encodeNumber (1000000 : Int)).length :=
  c5_measure_matches_encoding.1 1000000 (by norm_num)

/-- C2 as stated is false: decoding is unsigned, so a two's-complement
negative round-trips to its unsigned 64-bit value (`-1` decodes to
`2^64 - 1`), and a valid-but-non-minimal varint byte sequence such as
`80 00` (continuation bit clear on its final byte, two bytes) re-encodes to
its minimal form `00`. -/
theorem c2_counterexample :
    (decodeNumber (encodeNumber (-1)) : Int) ≠ -1
    ∧ encodeNumber ((decodeNumber [128, 0] : Nat) : Int) ≠ [128, 0] := by
  constructor
  · rw [encodeNumber_eq, decodeNumber_encLoLoop]
    have h : toU64 (-1) = 2 ^ 64 - 1 := by unfold toU64; rfl
    rw [h]
    intro hc
    norm_num at hc
  · have hd : decodeNumber [128, 0] = 0 := by
      rw [(decode_cons 128 [0]).1, varintLoop, dif_pos (by norm_num [getU8]),
        varintLoop, dif_neg (by norm_num [getU8])]
      norm_num [getU8]
    rw [hd]
    intro hc
    rw [show ((0 : Nat) : Int) = 0 from rfl,
      show encodeNumber 0 = [0] from rfl] at hc
    exact absurd hc (by simp)

/-- C2 amended: decoding the bytes written by `encodeNumber` yields the
unsigned 64-bit reduction of the value (equal to `v` exactly when
`0 ≤ v < 2^64`; a negative `v` comes back as `v + 2^64`), and `encodeNumber`
reproduces exactly those byte sequences that are canonical encodings of an
unsigned value below `2^64`. -/
theorem c2_varint_roundtrip :
    (∀ v : Int, (decodeNumber (encodeNumber v) : Int) = v % (2 ^ 64 : Int))
    ∧ (∀ n : Nat, n < 2 ^ 64 →
        encodeNumber ((decodeNumber (encodeNumber (n : Int)) : Nat) : Int)
          = encodeNumber (n : Int)) := by
  have h1 : ∀ v : Int, (decodeNumber (encodeNumber v) : Int) = v % (2 ^ 64 : Int) := by
    intro v
    rw [encodeNumber_eq, decodeNumber_encLoLoop]
    unfold toU64
    rw [Int.toNat_of_nonneg (Int.emod_nonneg v (by norm_num))]
  refine ⟨h1, fun n hn => ?_⟩
  have h3 : (decodeNumber (encodeNumber (n : Int)) : Int) = (n : Int) := by
    rw [h1 (n : Int)]
    omega
  have h4 : decodeNumber (encodeNumber (n : Int)) = n := by exact_mod_cast h3
  rw [h4]

theorem c2_varint_roundtrip_witness :
    encodeNumber ((decodeNumber (encodeNumber ((1000000 : Nat) : Int)) : Nat) : Int)
      = encodeNumber ((1000000 : Nat) : Int) :=
  c2_varint_roundtrip.2 1000000 (by norm_num)

/-- C10: `dedup` applied to a number returns the number itself (zero via the
falsy guard, anything else via the `typeof === 'number'` guard) and leaves
the table — entries, position map and encoding cache — untouched. -/
theorem c10_dedup_number_identity (t : StringTable) (n : Int) :
    t.dedup (.inr n) = .ok (t, n) := by
  by_cases h : n = 0
  · subst h
    simp [StringTable.dedup, jsFalsy]
  · simp [StringTable.dedup, jsFalsy, h]

/-- C8: a non-empty `locationId` (or `value`) sequence is encoded as the
field's tag byte, a varint payload length equal to the summed per-element
measured sizes (minimum 1 per element, so zeros occupy a byte), then each
element's varint in order; the measured payload length equals the byte count
actually written; an empty sequence contributes nothing; and
`Sample({locationId:[1,2,3]})` encodes to `0a 03 01 02 03`. -/
theorem c8_packed_encoding :
    (∀ ids : List Int, ids ≠ [] →
      Sample.encodeToBuffer ⟨ids, [], []⟩ =
        10 :: (encodeNumber (measureArray ids) ++ ids.flatMap (fun v => encodeNumber v))
      ∧ measureArray ids = (ids.flatMap (fun v => encodeNumber v)).length)
    ∧ (∀ vals : List Int, vals ≠ [] →
      Sample.encodeToBuffer ⟨[], vals, []⟩ =
        18 :: (encodeNumber (measureArray vals) ++ vals.flatMap (fun v => encodeNumber v)))
    ∧ Sample.encodeToBuffer ⟨[], [], []⟩ = []
    ∧ Sample.encode ⟨[1, 2, 3], [], []⟩ = [10, 3, 1, 2, 3] := by
  refine ⟨fun ids hne => ⟨?_, measureArray_eq_length ids⟩, fun vals hne => ?_, rfl, ?_⟩
  · simp [Sample.encodeToBuffer, hne]
  · simp [Sample.encodeToBuffer, hne]
  · have henc1 : encodeNumber (1 : Int) = [1] := by
      rw [encodeNumber_int_small 1 (by norm_num) (by norm_num)]
      rfl
    have henc2 : encodeNumber (2 : Int) = [2] := by
      rw [encodeNumber_int_small 2 (by norm_num) (by norm_num)]
      rfl
    have henc3 : encodeNumber (3 : Int) = [3] := by
      rw [encodeNumber_int_small 3 (by norm_num) (by norm_num)]
      rfl
    have hma : measureArray [(1 : Int), 2, 3] = 3 := by decide
    have hlen : Sample.length ⟨[1, 2, 3], [], []⟩ = 5 := by decide
    have hcast : ((3 : Nat) : Int) = (3 : Int) := by norm_num
    simp [Sample.encode, Sample.encodeToBuffer, hlen, hma, hcast, henc1, henc2, henc3,
      List.flatMap_cons, jsWrite]

theorem c8_packed_encoding_witness :
    Sample.encodeToBuffer ⟨[5, 0], [], []⟩ =
      10 :: (encodeNumber (measureArray [5, 0]) ++
        ([5, 0] : List Int).flatMap (fun v => encodeNumber v))
    ∧ measureArray [5, 0] = (([5, 0] : List Int).flatMap (fun v => encodeNumber v)).length :=
  c8_packed_encoding.1 [5, 0] (by simp)

/-- A well-formed varint byte chunk: continuation bit set on every byte but
the last, clear on the last. -/
def isVarintChunk : List Nat → Bool
  | [] => false
  | [b] => decide (b &&& 128 = 0)
  | b :: rest => decide (b &&& 128 ≠ 0) && isVarintChunk rest

/-- The varint arm's scan consumes exactly a well-formed chunk, whatever
follows it (the scan has no off-by-one, unlike the length-delimited arm). -/
lemma takeVarint_chunk : ∀ (chunk rest : List Nat), isVarintChunk chunk = true →
    takeVarint (chunk ++ rest) = chunk := by
  intro chunk
  induction chunk with
  | nil =>
    intro rest h
    simp [isVarintChunk] at h
  | cons b cs IH =>
    intro rest h
    cases cs with
    | nil =>
      simp only [isVarintChunk, decide_eq_true_eq] at h
      simp [takeVarint, h]
    | cons c cs2 =>
      rw [isVarintChunk] at h
      · simp only [Bool.and_eq_true, decide_eq_true_eq] at h
        rw [List.cons_append, takeVarint, if_neg h.1, IH rest h.2]
      · simp

lemma getValue_varint (buffer : List Nat) :
    getValue 0 buffer = .ok (takeVarint buffer, 0) := by
  simp [getValue, kTypeVarInt]

/-- C7 as stated is false: an unknown length-delimited entry whose length
prefix needs two bytes is not skipped cleanly.  Decoding field 3 (unknown
to `ValueType`) with a 128-byte payload followed by the known entry
`08 05` aborts with `Unrecognized value type: 1` — the mis-slice
`slice(offset, size + 1)` consumes one byte too few, the loop re-reads the
last payload byte as a tag, and the decode fails instead of yielding
`{type: 5}` (which decoding without the unknown entry produces). -/
theorem c7_counterexample :
    ValueType.decode (26 :: 128 :: 1 :: (List.replicate 128 1 ++ [8, 5]))
      = .error ("Unrecognized value type: " ++ toString (1 : Nat))
    ∧ ValueType.decode [8, 5] = .ok ⟨5, 0⟩ := by
  constructor
  · have hrest : (128 :: 1 :: (List.replicate 128 1 ++ [8, 5]) : List Nat)
        = (128 :: 1 :: List.replicate 127 1) ++ [1, 8, 5] := by
      rw [show (128 : Nat) = 127 + 1 from rfl, List.replicate_succ']
      simp
    have hcount : countNumberBytes (128 :: 1 :: (List.replicate 128 1 ++ [8, 5])) = 2 := by
      rw [countNumberBytes, if_pos (by norm_num), countNumberBytes_cons_small _ (by norm_num)]
    have hdec : decodeNumber (128 :: 1 :: (List.replicate 128 1 ++ [8, 5])) = 128 := by
      rw [(decode_cons 128 (1 :: (List.replicate 128 1 ++ [8, 5]))).1, varintLoop,
        dif_pos (by norm_num [getU8]), varintLoop, dif_neg (by norm_num [getU8])]
      norm_num [getU8]
    have hslice : jsSlice (128 :: 1 :: (List.replicate 128 1 ++ [8, 5])) 2 129
        = List.replicate 127 1 := by
      rw [jsSlice, hrest, List.take_append_eq_append_take,
        List.take_of_length_le (show ((128 :: 1 :: List.replicate 127 1 : List Nat)).length ≤ 129
          from by simp),
        show 129 - ((128 :: 1 :: List.replicate 127 1 : List Nat)).length = 0 from by simp]
      simp
    have hget : getValue 2 (128 :: 1 :: (List.replicate 128 1 ++ [8, 5]))
        = .ok (List.replicate 127 1, 2) := by
      simp only [getValue, kTypeVarInt, kTypeLengthDelim]
      norm_num
      rw [hcount, hdec, hslice]
      exact ⟨rfl, rfl⟩
    unfold ValueType.decode
    rw [decodeLoop_cons, show (26 : Nat) % 8 = 2 from by norm_num, hget]
    dsimp only [show (26 : Nat) / 8 = 3 from by norm_num]
    rw [show ValueType.decodeValue {} 3 (List.replicate 127 1) = {} from rfl]
    rw [show (128 :: 1 :: (List.replicate 128 1 ++ [8, 5]) : List Nat).drop
          ((List.replicate 127 1).length + 2) = [1, 8, 5] from by
      rw [hrest, List.length_replicate,
        show (127 + 2 : Nat) = ((128 :: 1 :: List.replicate 127 1 : List Nat)).length from
          by simp,
        List.drop_left]]
    rw [decodeLoop_cons, show (1 : Nat) % 8 = 1 from by norm_num,
      show getValue 1 [8, 5] = .error ("Unrecognized value type: " ++ toString (1 : Nat)) from by
        simp [getValue, kTypeVarInt, kTypeLengthDelim]]
    rfl
  · unfold ValueType.decode
    rw [decodeLoop_cons, show (8 : Nat) % 8 = 0 from by norm_num,
      @getValue_varint_small 5 [] (by norm_num)]
    dsimp only [show (8 : Nat) / 8 = 1 from by norm_num]
    rw [show ([5] : List Nat).drop (([5] : List Nat).length + 0) = [] from rfl, decodeLoop_nil]
    have h5 : decodeNumber [5] = 5 := decodeNumber_cons_small [] (by norm_num)
    simp [Except.map, ValueType.ofInput, ValueType.decodeValue, h5]

/-- C7 amended: in the generic decode loop, an unknown-field entry of wire
kind varint — of any byte length, provided its final byte clears the
continuation bit — is consumed and the decode continues as if the entry
were absent, and so is an unknown-field entry of wire kind
length-delimited whose length prefix fits in one byte (payload under 128
bytes); a tag with any other wire kind aborts the decode with the
`Unrecognized value type` error.  `ValueType.decodeValue` ignores every
field number outside its schema `{1, 2}`.  (An unknown length-delimited
entry with a multi-byte length prefix is not skipped cleanly: the
mis-slice desyncs the loop, see the counterexample.) -/
theorem c7_unknown_field_vs_unknown_wire_kind :
    (∀ (α : Type) (handler : α → Nat → List Nat → Except String α) (d : α)
        (f : Nat) (chunk rest : List Nat), isVarintChunk chunk = true →
        (∀ buf, handler d f buf = .ok d) →
        decodeLoop handler d ((f * 8) :: (chunk ++ rest)) = decodeLoop handler d rest)
    ∧ (∀ (α : Type) (handler : α → Nat → List Nat → Except String α) (d : α)
        (f s : Nat) (payload rest : List Nat), s < 128 → payload.length = s →
        (∀ buf, handler d f buf = .ok d) →
        decodeLoop handler d ((f * 8 + 2) :: (s :: (payload ++ rest)))
          = decodeLoop handler d rest)
    ∧ (∀ (α : Type) (handler : α → Nat → List Nat → Except String α) (d : α)
        (f m : Nat) (rest : List Nat), m < 8 → m ≠ 0 → m ≠ 2 →
        decodeLoop handler d ((f * 8 + m) :: rest)
          = .error ("Unrecognized value type: " ++ toString m))
    ∧ (∀ (d : ValueTypeInput) (f : Nat) (buf : List Nat), f ≠ 1 → f ≠ 2 →
        ValueType.decodeValue d f buf = d) := by
  refine ⟨?_, ?_, ?_, ?_⟩
  · intro α handler d f chunk rest hchunk hignore
    rw [decodeLoop_cons, show (f * 8) % 8 = 0 from by omega, getValue_varint,
      takeVarint_chunk chunk rest hchunk]
    dsimp only
    rw [show f * 8 / 8 = f from by omega, hignore chunk]
    dsimp only
    rw [Nat.add_zero, List.drop_left]
  · intro α handler d f s payload rest hs hlen hignore
    rw [decodeLoop_cons, show (f * 8 + 2) % 8 = 2 from by omega,
      getValue_lengthDelim_small (payload ++ rest) hs]
    have htake : (payload ++ rest).take s = payload := by
      rw [← hlen, List.take_left]
    rw [htake]
    simp only
    rw [show (f * 8 + 2) / 8 = f from by omega, hignore payload]
    simp only
    rw [show payload.length + 1 = s + 1 from by omega, List.drop_succ_cons,
      ← hlen, List.drop_left]
  · intro α handler d f m rest hm hm0 hm2
    rw [decodeLoop_cons, show (f * 8 + m) % 8 = m from by omega]
    simp [getValue, kTypeVarInt, kTypeLengthDelim, hm0, hm2]
  · intro d f buf h1 h2
    unfold ValueType.decodeValue
    rcases f with _ | _ | _ | f <;> simp_all

theorem c7_witness :
    decodeLoop (fun (d : ValueTypeInput) f b => .ok (ValueType.decodeValue d f b))
        {} (3 * 8 :: ([128, 1] ++ [8, 5]))
      = decodeLoop (fun (d : ValueTypeInput) f b => .ok (ValueType.decodeValue d f b))
        {} [8, 5] :=
  c7_unknown_field_vs_unknown_wire_kind.1 ValueTypeInput _ {} 3 [128, 1] [8, 5] (by decide)
    (fun buf => by
      rw [c7_unknown_field_vs_unknown_wire_kind.2.2.2 {} 3 buf (by norm_num) (by norm_num)])

/-- C3 as stated is false: a length-delimited field whose one-byte length
prefix claims 5 payload bytes while only one remains decodes without any
error — `ValueType.decode` returns a message built from the clamped
payload instead of aborting. -/
theorem c3_counterexample :
    ValueType.decode [10, 5, 1] = .ok ⟨1, 0⟩ := by
  unfold ValueType.decode
  rw [decodeLoop_cons, show (10 : Nat) % 8 = 2 from by norm_num,
    getValue_lengthDelim_small [1] (by norm_num)]
  simp only [List.take, List.length_cons, List.length_nil]
  rw [show (10 : Nat) / 8 = 1 from by norm_num]
  simp only [ValueType.decodeValue]
  rw [show ([5, 1] : List Nat).drop (1 + 1) = [] from rfl, decodeLoop_nil]
  have h1 : decodeNumber [1] = 1 := decodeNumber_cons_small [] (by norm_num)
  simp [Except.map, ValueType.ofInput, h1]

/-- C3 amended: when a length-delimited field's one-byte length prefix
claims more payload bytes than remain in the buffer, `slice` clamps the
payload to the bytes that are actually there and decoding completes
normally on the shortened payload — corrupt input is not rejected. -/
theorem c3_truncated_payload_not_fatal (f s : Nat) (payload : List Nat)
    (hs : s < 128) (hshort : payload.length < s) :
    ValueType.decode ((f * 8 + 2) :: s :: payload) =
      .ok (ValueType.ofInput (ValueType.decodeValue {} f payload)) := by
  unfold ValueType.decode
  rw [decodeLoop_cons, show (f * 8 + 2) % 8 = 2 from by omega,
    getValue_lengthDelim_small payload hs,
    List.take_of_length_le (by omega),
    show (f * 8 + 2) / 8 = f from by omega]
  dsimp only
  rw [show (s :: payload).drop (payload.length + 1) = payload.drop payload.length from
      List.drop_succ_cons,
    List.drop_length, decodeLoop_nil]
  rfl

theorem c3_truncated_payload_witness :
    ValueType.decode [2 * 8 + 2, 5, 9] =
      .ok (ValueType.ofInput (ValueType.decodeValue {} 2 [9])) :=
  c3_truncated_payload_not_fatal 2 5 [9] (by norm_num) (by simp)

/-- Instrumented twin of `varintLoop` that records every buffer index the
loop evaluates: the `while` condition probes `buffer[i]`, and when it holds
the body then probes `buffer[i + 1]`. -/
def varintLoopReads (buffer : List Nat) (i : Nat) : List Nat :=
  if h : getU8 buffer i ≥ 128 then i :: (i + 1) :: varintLoopReads buffer (i + 1)
  else [i]
termination_by buffer.length - i
decreasing_by
  have hi : i < buffer.length := getU8_lt_of_ge h
  omega

/-- C9 as stated is false: decoding the truncated varint `[0x80]` (a single
byte with the continuation bit set) probes index 1, which is past the end of
the one-byte buffer. -/
theorem c9_counterexample :
    ([128] : List Nat).length ∈ varintLoopReads [128] 0 := by
  rw [varintLoopReads, dif_pos (by norm_num [getU8])]
  simp

/-- C9 amended: iteration is always bounded — `countNumberBytes` consumes at
most the buffer itself, and the shared decode loop of `decodeNumber` and
`decodeBigNumber` probes indices at most one slot past the end (where the JS
read yields `undefined`, coerced to 0) — and decoding a truncated varint
still returns a value rather than failing. -/
theorem c9_reads_bounded :
    (∀ buffer : List Nat, countNumberBytes buffer ≤ buffer.length)
    ∧ (∀ (buffer : List Nat) (i : Nat), i ≤ buffer.length →
        ∀ j ∈ varintLoopReads buffer i, j ≤ buffer.length)
    ∧ decodeNumber [128] = 0 := by
  refine ⟨?_, ?_, ?_⟩
  · intro buffer
    induction buffer with
    | nil => simp [countNumberBytes]
    | cons b rest IH =>
      rw [countNumberBytes]
      split_ifs <;> simp only [List.length_cons] <;> omega
  · intro buffer
    refine varintLoopReads.induct buffer
      (fun i => i ≤ buffer.length → ∀ j ∈ varintLoopReads buffer i, j ≤ buffer.length) ?_ ?_
    · intro i h IH hi j hj
      have hlt : i < buffer.length := getU8_lt_of_ge h
      rw [varintLoopReads, dif_pos h] at hj
      rcases List.mem_cons.mp hj with rfl | hj
      · omega
      · rcases List.mem_cons.mp hj with rfl | hj
        · omega
        · exact IH (by omega) j hj
    · intro i h hi j hj
      rw [varintLoopReads, dif_neg h] at hj
      rcases List.mem_cons.mp hj with rfl | hj
      · exact hi
      · simp at hj
  · rw [(decode_cons 128 []).1, varintLoop, dif_pos (by norm_num [getU8]),
      varintLoop, dif_neg (by norm_num [getU8])]
    norm_num [getU8]

theorem c9_reads_bounded_witness :
    ∀ j ∈ varintLoopReads [128, 5] 0, j ≤ ([128, 5] : List Nat).length :=
  c9_reads_bounded.2.1 [128, 5] 0 (by norm_num)

/-! ## The C1 failing input: a Sample with a 128-byte packed payload -/

lemma encodeNumber_one : encodeNumber (1 : Int) = [1] := by
  rw [encodeNumber_int_small 1 (by norm_num) (by norm_num)]
  rfl

lemma flatMap_encode_ones (k : Nat) :
    (List.replicate k (1 : Int)).flatMap (fun v => encodeNumber v) = List.replicate k 1 := by
  induction k with
  | zero => rfl
  | succ k IH => simp [List.replicate_succ, List.flatMap_cons, encodeNumber_one, IH]

lemma measureArray_ones (k : Nat) : measureArray (List.replicate k 1) = k := by
  induction k with
  | zero => rfl
  | succ k IH =>
    have h1 : measureValueNum 1 = 1 := by decide
    simp [measureArray, List.replicate_succ, List.map_cons, List.sum_cons, h1] at *
    omega

lemma decodeNumbers_ones (k : Nat) : decodeNumbers (List.replicate k 1) = List.replicate k 1 := by
  unfold decodeNumbers
  induction k with
  | zero => rfl
  | succ k IH =>
    rw [List.replicate_succ, decodeNumbersGo, if_pos (by norm_num), List.nil_append,
      decodeNumber_cons_small [] (by norm_num), IH]

/-- C1 fails on the code: round-tripping a `Sample` whose packed
`locationId` payload is 128 bytes long loses an element.  The measured
length assumes a one-byte length prefix (`2 + total`), so `encode()`
truncates the final byte, and `getValue`'s `slice(offset, size + 1)` then
mis-slices the remaining payload; the decoded message has 127 entries where
the original had 128. -/
theorem c1_roundtrip_fails_on_long_payload :
    Sample.decode (Sample.encode ⟨List.replicate 128 1, [], []⟩)
      = .ok ⟨List.replicate 127 1, [], []⟩
    ∧ (⟨List.replicate 127 1, [], []⟩ : Sample) ≠ ⟨List.replicate 128 1, [], []⟩ := by
  have henc128 : encodeNumber ((128 : Nat) : Int) = [128, 1] := by
    rw [encodeNumber_int_two ((128 : Nat) : Int) (by norm_num) (by norm_num)]
    all_goals rfl
  have hlen : Sample.length ⟨List.replicate 128 1, [], []⟩ = 130 := by
    rw [Sample.length]
    dsimp only
    rw [measureNumberArrayField, measureArray_ones, if_neg (by norm_num)]
    rfl
  have hbuf : Sample.encodeToBuffer ⟨List.replicate 128 1, [], []⟩
      = [10, 128, 1] ++ List.replicate 128 1 := by
    rw [Sample.encodeToBuffer]
    dsimp only
    rw [if_pos (show ¬ (List.replicate 128 (1 : Int)).length = 0 from by
        rw [List.length_replicate]; norm_num),
      if_neg (show ¬ ¬ ([] : List Int).length = 0 from by simp),
      measureArray_ones, henc128, flatMap_encode_ones]
    simp only [List.flatMap_nil, List.append_nil, List.cons_append, List.nil_append]
  have henc : Sample.encode ⟨List.replicate 128 1, [], []⟩
      = 10 :: 128 :: 1 :: List.replicate 127 1 := by
    rw [Sample.encode, hlen, hbuf, jsWrite,
      show (([10, 128, 1] : List Nat) ++ List.replicate 128 (1 : Nat)).length = 131 from by
        rw [List.length_append, List.length_replicate]; rfl,
      show (130 - 131 : Nat) = 0 from rfl,
      List.take_append_eq_append_take,
      List.take_of_length_le (show ([10, 128, 1] : List Nat).length ≤ 130 from by
        rw [show ([10, 128, 1] : List Nat).length = 3 from rfl]; norm_num),
      show 130 - ([10, 128, 1] : List Nat).length = 127 from rfl,
      List.take_replicate,
      show (127 ⊓ 128 : Nat) = 127 from by norm_num]
    simp only [List.replicate_zero, List.append_nil, List.cons_append, List.nil_append]
  constructor
  · rw [henc]
    have hcount : countNumberBytes (128 :: 1 :: List.replicate 127 1) = 2 := by
      rw [countNumberBytes, if_pos (by norm_num), countNumberBytes_cons_small _ (by norm_num)]
    have hdec : decodeNumber (128 :: 1 :: List.replicate 127 1) = 128 := by
      rw [(decode_cons 128 (1 :: List.replicate 127 1)).1, varintLoop,
        dif_pos (by norm_num [getU8]), varintLoop, dif_neg (by norm_num [getU8])]
      norm_num [getU8]
    have hslice : jsSlice (128 :: 1 :: List.replicate 127 1) 2 129 = List.replicate 127 1 := by
      rw [jsSlice, List.take_of_length_le (by simp)]
      rfl
    have hget : getValue 2 (128 :: 1 :: List.replicate 127 1)
        = .ok (List.replicate 127 1, 2) := by
      simp only [getValue, kTypeVarInt, kTypeLengthDelim]
      norm_num
      rw [hcount, hdec, hslice]
      exact ⟨rfl, rfl⟩
    unfold Sample.decode
    rw [decodeLoop_cons, show (10 : Nat) % 8 = 2 from by norm_num, hget]
    dsimp only [Sample.decodeValue, show (10 : Nat) / 8 = 1 from by norm_num]
    rw [show (128 :: 1 :: List.replicate 127 1).drop ((List.replicate 127 1).length + 2)
        = [] from by
      rw [List.length_replicate]
      apply List.drop_eq_nil_of_le
      rw [List.length_cons, List.length_cons, List.length_replicate],
      decodeLoop_nil]
    simp only [Except.map, Sample.ofInput, decodeNumbers_ones, List.map_replicate,
      Option.getD_some, Option.getD_none, List.map_nil, Nat.cast_one]
  · intro h
    have := congrArg (fun s : Sample => s.locationId.length) h
    simp at this

/-! ## String table facts -/

lemma utf8Bytes_empty : utf8Bytes "" = [] := rfl

lemma charUtf8_ne_nil (c : Char) : charUtf8 c ≠ [] := by
  unfold charUtf8
  dsimp only
  split_ifs <;> simp

lemma utf8Bytes_ne_nil {s : String} (h : s ≠ "") : utf8Bytes s ≠ [] := by
  unfold utf8Bytes
  cases hs : s.data with
  | nil =>
    exfalso
    apply h
    cases s
    simp_all
  | cons c cs =>
    simp only [List.flatMap_cons]
    intro hc
    rcases List.append_eq_nil.mp hc with ⟨h1, _⟩
    exact charUtf8_ne_nil c h1

/-- The empty string cannot be cached: `_encodeString` under-allocates (its
buffer has room for the tag byte only) and the final `set` throws. -/
lemma encodeString_empty : StringTable.encodeString "" = .error "offset is out of bounds" := by
  unfold StringTable.encodeString
  rw [utf8Bytes_empty]
  dsimp only
  norm_num [measureNumber_zero, show encodeNumber (0 : Int) = [0] from rfl]

lemma jsWrite_exact {size : Nat} {bytes : List Nat} (h : bytes.length = size) :
    jsWrite size bytes = bytes := by
  rw [jsWrite, List.take_of_length_le (by omega), h]
  simp

/-- For a non-empty string the allocation is exact and `_encodeString`
returns tag, length varint, then the UTF-8 bytes. -/
lemma encodeString_ok {s : String} (h : s ≠ "") :
    StringTable.encodeString s =
      .ok (50 :: (encodeNumber ((utf8Bytes s).length : Int) ++ utf8Bytes s)) := by
  unfold StringTable.encodeString
  have hne : utf8Bytes s ≠ [] := utf8Bytes_ne_nil h
  have hlen0 : (utf8Bytes s).length ≠ 0 := fun hc => hne (List.length_eq_zero.mp hc)
  have hm : (encodeNumber ((utf8Bytes s).length : Int)).length
      = measureNumber ((utf8Bytes s).length : Int) :=
    (measureNumber_eq_length _ (by exact_mod_cast hlen0)).symm
  rw [if_neg (by simp only [List.length_cons, hm]; omega)]
  congr 1
  apply jsWrite_exact
  simp only [List.append_assoc, List.length_append, List.length_cons, hm]
  omega

lemma encodeString_a : StringTable.encodeString "a" = .ok [50, 1, 97] := by
  rw [encodeString_ok (by decide), show utf8Bytes "a" = [97] from rfl]
  rw [show (([97] : List Nat).length : Int) = ((1 : Nat) : Int) from rfl,
    encodeNumber_int_small _ (by norm_num) (by norm_num)]
  rfl

/-- C4 fails on the code: `StringTable.from` pushes every input value with
no dedup pass.  `from([''])` — the repo's own test fixture — crashes in
`_encodeString('')`, and `from(['a','a'])` records index 2 for `'a'` where
deduping `a, a` onto an empty table records index 1. -/
theorem c4_from_does_not_dedup :
    StringTable.fromList [""] = .error "offset is out of bounds"
    ∧ (StringTable.fromList ["a", "a"]).map (fun t => mapGet t.positions "a")
        = .ok (some 2)
    ∧ (StringTable.new.dedup (.inl "a") >>= fun p => p.1.dedup (.inl "a")).map
        (fun p => p.2) = .ok 1 := by
  refine ⟨?_, ?_, ?_⟩
  · simp [StringTable.fromList, List.foldlM, StringTable.fromStep, encodeString_empty]
  · simp [StringTable.fromList, List.foldlM, StringTable.fromStep, encodeString_a,
      StringTable.new, mapSet, mapHas, mapGet, bind, Except.bind, Except.map, pure, Except.pure]
  · simp [StringTable.dedup, jsFalsy, encodeString_a, StringTable.new,
      mapSet, mapHas, mapGet, bind, Except.bind, Except.map, pure, Except.pure]

lemma mapHas_mapSet_of_ne {α : Type} (m : List (String × α)) {k k' : String} (v : α)
    (hne : k' ≠ k) (h : mapHas m k' = false) : mapHas (mapSet m k v) k' = false := by
  unfold mapHas at h ⊢
  unfold mapSet
  rw [List.any_eq_false] at h
  split_ifs with hk
  · rw [List.any_eq_false]
    intro p hp
    rcases List.mem_map.mp hp with ⟨q, hq, rfl⟩
    by_cases hqk : q.1 = k
    · simp [hqk, Ne.symm hne]
    · simpa [hqk] using h q hq
  · rw [List.any_eq_false]
    intro p hp
    rcases List.mem_append.mp hp with hp | hp
    · exact h p hp
    · rcases List.mem_singleton.mp hp with rfl
      simp [Ne.symm hne]

lemma fromStep_no_empty {t t' : StringTable} {v : String}
    (h : StringTable.fromStep t v = .ok t') (hinv : mapHas t.encodings "" = false) :
    mapHas t'.encodings "" = false := by
  unfold StringTable.fromStep at h
  rcases henc : StringTable.encodeString v with e | enc
  · rw [henc] at h
    cases h
  · rw [henc] at h
    have hv : v ≠ "" := by
      rintro rfl
      rw [encodeString_empty] at henc
      cases henc
    cases h
    exact mapHas_mapSet_of_ne _ _ (fun hc => hv hc.symm) hinv

lemma fromList_go_no_empty (vs : List String) : ∀ (t t' : StringTable),
    mapHas t.encodings "" = false →
    List.foldlM StringTable.fromStep t vs = .ok t' →
    mapHas t'.encodings "" = false := by
  induction vs with
  | nil =>
    intro t t' h hf
    simp only [List.foldlM_nil] at hf
    cases hf
    exact h
  | cons v vs IH =>
    intro t t' h hf
    rw [List.foldlM_cons] at hf
    rcases hstep : StringTable.fromStep t v with e | t1
    · rw [hstep] at hf
      cases hf
    · rw [hstep] at hf
      exact IH t1 t' (fromStep_no_empty hstep h) hf

lemma reachable_no_empty_key (t : StringTable) (h : StringTable.Reachable t) :
    mapHas t.encodings "" = false := by
  induction h with
  | new => rfl
  | dedup t t' x i hr heq IH =>
    rcases x with s | n
    · by_cases hf : s = ""
      · subst hf
        simp only [StringTable.dedup, jsFalsy, decide_True, if_pos] at heq
        cases heq
        exact IH
      · rw [StringTable.dedup, if_neg (by simp [jsFalsy, hf])] at heq
        by_cases hhas : mapHas t.positions s
        · rw [if_pos hhas] at heq
          cases heq
          exact IH
        · rw [if_neg hhas] at heq
          rcases henc : StringTable.encodeString s with e | enc
          · rw [henc] at heq
            cases heq
          · rw [henc] at heq
            cases heq
            exact mapHas_mapSet_of_ne _ _ (fun hc => hf hc.symm) IH
    · by_cases hn : n = 0
      · subst hn
        simp only [StringTable.dedup, jsFalsy, decide_True, if_pos] at heq
        cases heq
        exact IH
      · rw [StringTable.dedup, if_neg (by simp [jsFalsy, hn])] at heq
        cases heq
        exact IH
  | ofList vs t heq =>
    exact fromList_go_no_empty vs StringTable.new t rfl heq

/-- C6: no reachable table — grown by `dedup` or built by
`StringTable.from` — ever holds a cached wire encoding for the empty
string, so neither `encode` (which emits exactly the cached encodings)
nor `encodedLength` (which sums them) ever includes bytes for it. -/
theorem c6_empty_string_never_emitted (t : StringTable) (h : StringTable.Reachable t) :
    mapHas t.encodings "" = false
    ∧ t.encodedLength =
        ((t.encodings.filter (fun p => !(decide (p.1 = "")))).map (fun p => p.2.length)).sum
    ∧ t.encode = ((t.encodings.filter (fun p => !(decide (p.1 = "")))).map (fun p => p.2)).flatten := by
  have h1 : mapHas t.encodings "" = false := reachable_no_empty_key t h
  have hfilter : t.encodings.filter (fun p => !(decide (p.1 = ""))) = t.encodings := by
    rw [List.filter_eq_self]
    intro p hp
    unfold mapHas at h1
    rw [List.any_eq_false] at h1
    have := h1 p hp
    simpa using this
  exact ⟨h1, by rw [hfilter]; rfl, by rw [hfilter]; rfl⟩

theorem c6_witness :
    mapHas (StringTable.new).encodings "" = false
    ∧ (StringTable.new).encodedLength =
        (((StringTable.new).encodings.filter (fun p => !(decide (p.1 = "")))).map
          (fun p => p.2.length)).sum
    ∧ (StringTable.new).encode =
        (((StringTable.new).encodings.filter (fun p => !(decide (p.1 = "")))).map
          (fun p => p.2)).flatten :=
  c6_empty_string_never_emitted StringTable.new StringTable.Reachable.new

end Pprof
